import Mathlib

/-!
# Verification of the tforder dependency-graph core

Shallow embedding of the Go sources of `tforder` (graph model, the Kahn
topological orderer `topoSort`, the reversal transform `reverseEdges`, the
wave-based parallel executor `dagExec`, and the parser entry points
`parseDependencies` / `collectEdges`), together with proofs and refutations
of the specified properties.

Modelling conventions:
* Go strings are Lean `String`s; Go `int` in-degrees are Lean `Int`s (the code
  decrements them, and faithfulness requires values below zero to stay
  distinct from zero).
* Go maps used as sets/tables are modelled as functions / lists; the single
  observable nondeterminism in the code is the iteration order of the node
  set map (`for n := range nodes`), which we expose as an explicit parameter
  `ns` — every theorem quantifies over all duplicate-free enumerations of the
  node set, covering every possible map iteration order.
* Loops that Go runs until a queue drains are given explicit fuel; the fuel
  chosen in the definitions is proven sufficient, so the embedding computes
  exactly what the Go loop computes.
-/

namespace Tforder

/-- `type Edge struct { Source string; Target string }` (tforder.go). -/
structure Edge where
  Source : String
  Target : String
deriving DecidableEq, Repr

/-- The edge relation of an edge list: `edgeRel edges a b` holds when some
edge in the list goes from `a` to `b`. -/
def edgeRel (edges : List Edge) (a b : String) : Prop :=
  ∃ e, e ∈ edges ∧ e.Source = a ∧ e.Target = b

/-- An edge list is acyclic when its edge relation has no nonempty cycle:
no node reaches itself through one or more edges. -/
def Acyclic (edges : List Edge) : Prop :=
  ∀ n, ¬ Relation.TransGen (edgeRel edges) n n

/-- The node set derived from the edges, as a duplicate-free list: in the Go
code, `nodes[e.Source]` and `nodes[e.Target]` are inserted into a set for
every edge.  Membership in this list is the specification of that set; the
map's iteration order is modelled separately (parameter `ns`). -/
def nodesOf (edges : List Edge) : List String :=
  (edges.map Edge.Source ++ edges.map Edge.Target).dedup

/-- `ns` is a legitimate iteration order of the node-set map: duplicate-free
and containing exactly the endpoints of the edges. -/
def NodeIter (edges : List Edge) (ns : List String) : Prop :=
  ns.Nodup ∧ ∀ x, x ∈ ns ↔ x ∈ nodesOf edges

/-- The adjacency list built by `adj[e.Source] = append(adj[e.Source], e.Target)`:
targets of the edges leaving `n`, in edge-list order. -/
def adjList (edges : List Edge) (n : String) : List String :=
  (edges.filter (fun e => decide (e.Source = n))).map Edge.Target

/-- The initial in-degree of `n`: `inDegree[e.Target]++` for every edge. -/
def inDeg (edges : List Edge) (n : String) : Int :=
  ((edges.filter (fun e => decide (e.Target = n))).length : Int)

/-- Number of edges into `x` whose source lies in `l` (the processed prefix);
used to describe the current value of the mutable `inDegree` table. -/
def incomingFrom (edges : List Edge) (l : List String) (x : String) : Int :=
  ((edges.filter (fun e => decide (e.Target = x ∧ e.Source ∈ l))).length : Int)

/-- Number of edges from `n` to `x` in the edge list (with multiplicity). -/
def cntEdge (edges : List Edge) (n x : String) : Int :=
  ((edges.filter (fun e => decide (e.Source = n ∧ e.Target = x))).length : Int)

/-- Number of occurrences of `x` in a list of node names, as an integer. -/
def occ (ms : List String) (x : String) : Int :=
  ((ms.filter (fun y => decide (y = x))).length : Int)

/-- The inner loop body shared by `topoSort` and `dagExec`:
`for _, m := range adj[n] { inDegree[m]--; if inDegree[m] == 0 { enqueue m } }`.
Returns the updated degree table and the nodes that reached zero, in
traversal order. -/
def processAdj (deg : String → Int) : List String → (String → Int) × List String
  | [] => (deg, [])
  | m :: rest =>
    let deg1 := Function.update deg m (deg m - 1)
    let p := processAdj deg1 rest
    if deg m - 1 = 0 then (p.1, m :: p.2) else (p.1, p.2)

/-- `a` occurs strictly before `b` in the list `l`. -/
def Before (l : List String) (a b : String) : Prop :=
  ∃ l1 l2, l = l1 ++ b :: l2 ∧ a ∈ l1

/-- The queue-driven Kahn loop of `topoSort` (util.go / the `reverse`-capable
copy): dequeue the head, append it to the order, decrement its targets and
enqueue those that reach zero.  `fuel` bounds the number of iterations; the
callers pass fuel that is proven sufficient (each iteration appends one fresh
node, so `|nodes| + 1` iterations can never be reached). -/
def kahnLoop (adjf : String → List String) :
    Nat → (String → Int) → List String → List String → List String
  | 0, _, _, order => order
  | fuel + 1, deg, queue, order =>
    match queue with
    | [] => order
    | n :: rest =>
      let p := processAdj deg (adjf n)
      kahnLoop adjf fuel p.1 (rest ++ p.2) (order ++ [n])

/-- The initial ready queue: `for n := range nodes { if inDegree[n] == 0 … }`,
with `ns` the map iteration order. -/
def initQueue (deg : String → Int) (ns : List String) : List String :=
  ns.filter (fun n => decide (deg n = 0))

/-- `func topoSort(edges []Edge) ([]string, error)` (util.go).  The Go
function returns `(nil, fmt.Errorf("cycle detected in dependency graph"))`
when the produced order misses nodes; we model the pair as an `Except`. -/
def topoSort (edges : List Edge) (ns : List String) : Except String (List String) :=
  let deg := inDeg edges
  let order := kahnLoop (adjList edges) (ns.length + edges.length + 1) deg (initQueue deg ns) []
  if order.length = ns.length then .ok order
  else .error "cycle detected in dependency graph"

/-- `func reverseEdges(edges []Edge) []Edge`: a new slice with Source and
Target swapped on every edge. -/
def reverseEdges (edges : List Edge) : List Edge :=
  edges.map (fun e => { Source := e.Target, Target := e.Source })

/-- `func topoSort(edges []Edge, reverse bool)` (the dependency-ordering
copy): if `reverse` is set, the edges are reversed first, and the whole
Kahn computation — adjacency, in-degrees, queue — runs on the reversed
edge set. -/
def topoSortRev (edges : List Edge) (reverse : Bool) (ns : List String) :
    Except String (List String) :=
  let sortEdges := if reverse then reverseEdges edges else edges
  topoSort sortEdges ns

/-! ## Counting helpers -/

theorem occ_nonneg (ms : List String) (x : String) : 0 ≤ occ ms x := by
  simp [occ]

theorem occ_nil (x : String) : occ [] x = 0 := rfl

theorem occ_cons (m : String) (ms : List String) (x : String) :
    occ (m :: ms) x = occ ms x + if m = x then 1 else 0 := by
  by_cases h : m = x <;> simp [occ, List.filter_cons, h]

theorem occ_pos_mem {ms : List String} {x : String} (h : 1 ≤ occ ms x) : x ∈ ms := by
  induction ms with
  | nil => simp [occ_nil] at h
  | cons m rest ih =>
    rw [occ_cons] at h
    by_cases hm : m = x
    · exact hm ▸ List.mem_cons_self m rest
    · simp only [hm, if_false, add_zero] at h
      exact List.mem_cons_of_mem m (ih h)

theorem incomingFrom_nil (edges : List Edge) (x : String) :
    incomingFrom edges [] x = 0 := by
  simp [incomingFrom]

theorem incomingFrom_cons (e : Edge) (rest : List Edge) (l : List String) (x : String) :
    incomingFrom (e :: rest) l x =
      incomingFrom rest l x + if e.Target = x ∧ e.Source ∈ l then 1 else 0 := by
  simp only [incomingFrom, List.filter_cons]
  by_cases h : e.Target = x ∧ e.Source ∈ l <;> simp [h]

theorem inDeg_cons (e : Edge) (rest : List Edge) (x : String) :
    inDeg (e :: rest) x = inDeg rest x + if e.Target = x then 1 else 0 := by
  simp only [inDeg, List.filter_cons]
  by_cases h : e.Target = x <;> simp [h]

theorem cntEdge_cons (e : Edge) (rest : List Edge) (n x : String) :
    cntEdge (e :: rest) n x = cntEdge rest n x + if e.Source = n ∧ e.Target = x then 1 else 0 := by
  simp only [cntEdge, List.filter_cons]
  by_cases h : e.Source = n ∧ e.Target = x <;> simp [h]

theorem adjList_cons (e : Edge) (rest : List Edge) (n : String) :
    adjList (e :: rest) n =
      if e.Source = n then e.Target :: adjList rest n else adjList rest n := by
  simp only [adjList, List.filter_cons]
  by_cases h : e.Source = n <;> simp [h]

theorem incomingFrom_le_inDeg (edges : List Edge) (l : List String) (x : String) :
    incomingFrom edges l x ≤ inDeg edges x := by
  induction edges with
  | nil => simp [incomingFrom, inDeg]
  | cons e rest ih =>
    rw [incomingFrom_cons, inDeg_cons]
    by_cases ht : e.Target = x
    · by_cases hs : e.Source ∈ l <;> simp [ht, hs] <;> omega
    · simp [ht]; omega

theorem incomingFrom_nonneg (edges : List Edge) (l : List String) (x : String) :
    0 ≤ incomingFrom edges l x := by
  simp [incomingFrom]

theorem incomingFrom_eq_inDeg {edges : List Edge} {l : List String} {x : String}
    (h : ∀ e ∈ edges, e.Target = x → e.Source ∈ l) :
    incomingFrom edges l x = inDeg edges x := by
  induction edges with
  | nil => simp [incomingFrom, inDeg]
  | cons e rest ih =>
    have ih' := ih (fun e' he' => h e' (List.mem_cons_of_mem e he'))
    rw [incomingFrom_cons, inDeg_cons]
    by_cases ht : e.Target = x
    · have hs := h e (List.mem_cons_self e rest) ht
      simp [ht, hs, ih']
    · simp [ht, ih']

theorem all_incoming_of_eq_inDeg {edges : List Edge} {l : List String} {x : String}
    (h : incomingFrom edges l x = inDeg edges x) :
    ∀ e ∈ edges, e.Target = x → e.Source ∈ l := by
  induction edges with
  | nil => simp
  | cons e rest ih =>
    rw [incomingFrom_cons, inDeg_cons] at h
    have hle := incomingFrom_le_inDeg rest l x
    intro e' he' ht'
    rcases List.mem_cons.mp he' with rfl | hmem
    · by_cases hs : e'.Source ∈ l
      · exact hs
      · exfalso; simp [ht', hs] at h; omega
    · refine ih ?_ e' hmem ht'
      by_cases ht : e.Target = x
      · by_cases hs : e.Source ∈ l
        · simp [ht, hs] at h; omega
        · exfalso; simp [ht, hs] at h; omega
      · simp [ht] at h; omega

theorem incomingFrom_lt_of_missing {edges : List Edge} {l : List String} {x : String}
    (h : ¬ ∀ e ∈ edges, e.Target = x → e.Source ∈ l) :
    incomingFrom edges l x < inDeg edges x := by
  rcases lt_or_eq_of_le (incomingFrom_le_inDeg edges l x) with hlt | heq
  · exact hlt
  · exact absurd (all_incoming_of_eq_inDeg heq) h

theorem incomingFrom_snoc {l : List String} {n : String} (edges : List Edge) (x : String)
    (hn : n ∉ l) :
    incomingFrom edges (l ++ [n]) x = incomingFrom edges l x + cntEdge edges n x := by
  induction edges with
  | nil => simp [incomingFrom, cntEdge]
  | cons e rest ih =>
    rw [incomingFrom_cons, incomingFrom_cons, cntEdge_cons]
    have hmem : e.Source ∈ l ++ [n] ↔ e.Source ∈ l ∨ e.Source = n := by
      simp [List.mem_append]
    by_cases ht : e.Target = x
    · by_cases hs : e.Source ∈ l
      · have hne : ¬ e.Source = n := fun h => hn (h ▸ hs)
        simp [ht, hs, hmem, hne, ih]; omega
      · by_cases hsn : e.Source = n
        · simp [ht, hs, hmem, hsn, hn, ih]; omega
        · simp [ht, hs, hmem, hsn, ih]
    · simp [ht, ih]

theorem cntEdge_eq_occ_adjList (edges : List Edge) (n x : String) :
    occ (adjList edges n) x = cntEdge edges n x := by
  induction edges with
  | nil => rfl
  | cons e rest ih =>
    rw [adjList_cons, cntEdge_cons]
    by_cases hs : e.Source = n
    · by_cases ht : e.Target = x
      · simp [hs, ht, occ_cons, ih]
      · simp [hs, ht, occ_cons, ih]
    · simp [hs, ih]

theorem inDeg_eq_zero_iff (edges : List Edge) (x : String) :
    inDeg edges x = 0 ↔ ∀ e ∈ edges, e.Target ≠ x := by
  simp only [inDeg, Int.natCast_eq_zero, List.length_eq_zero, List.filter_eq_nil_iff,
    decide_eq_true_eq]

theorem mem_nodesOf_source {edges : List Edge} {e : Edge} (he : e ∈ edges) :
    e.Source ∈ nodesOf edges := by
  simp only [nodesOf, List.mem_dedup, List.mem_append, List.mem_map]
  exact Or.inl ⟨e, he, rfl⟩

theorem mem_nodesOf_target {edges : List Edge} {e : Edge} (he : e ∈ edges) :
    e.Target ∈ nodesOf edges := by
  simp only [nodesOf, List.mem_dedup, List.mem_append, List.mem_map]
  exact Or.inr ⟨e, he, rfl⟩

theorem mem_adjList_target {edges : List Edge} {n x : String}
    (h : x ∈ adjList edges n) : ∃ e ∈ edges, e.Source = n ∧ e.Target = x := by
  simp only [adjList, List.mem_map, List.mem_filter, decide_eq_true_eq] at h
  obtain ⟨e, ⟨he, hs⟩, ht⟩ := h
  exact ⟨e, he, hs, ht⟩

/-! ## The inner decrement loop -/

theorem processAdj_cons_fst (deg : String → Int) (m : String) (rest : List String) :
    (processAdj deg (m :: rest)).1 =
      (processAdj (Function.update deg m (deg m - 1)) rest).1 := by
  simp only [processAdj]
  split <;> rfl

theorem processAdj_cons_snd (deg : String → Int) (m : String) (rest : List String) :
    (processAdj deg (m :: rest)).2 =
      if deg m - 1 = 0 then m :: (processAdj (Function.update deg m (deg m - 1)) rest).2
      else (processAdj (Function.update deg m (deg m - 1)) rest).2 := by
  simp only [processAdj]
  split <;> simp_all

theorem processAdj_fst (ms : List String) :
    ∀ deg : String → Int, ∀ x, (processAdj deg ms).1 x = deg x - occ ms x := by
  induction ms with
  | nil => intro deg x; simp [processAdj, occ_nil]
  | cons m rest ih =>
    intro deg x
    rw [processAdj_cons_fst, ih, occ_cons, Function.update_apply]
    by_cases h : x = m
    · subst h
      rw [if_pos rfl, if_pos rfl]
      omega
    · rw [if_neg h, if_neg (fun h' : m = x => h h'.symm)]
      omega

theorem processAdj_mem (ms : List String) :
    ∀ deg : String → Int, ∀ x, x ∈ (processAdj deg ms).2 ↔ 1 ≤ deg x ∧ deg x ≤ occ ms x := by
  induction ms with
  | nil =>
    intro deg x
    simp only [processAdj, List.not_mem_nil, occ_nil, false_iff, not_and, not_le]
    intro h1
    omega
  | cons m rest ih =>
    intro deg x
    rw [processAdj_cons_snd, occ_cons]
    by_cases hm : m = x
    · subst hm
      rw [if_pos rfl]
      have hP := ih (Function.update deg m (deg m - 1)) m
      rw [Function.update_same] at hP
      have hocc := occ_nonneg rest m
      by_cases h0 : deg m - 1 = 0
      · rw [if_pos h0, List.mem_cons, hP]
        constructor
        · intro _; omega
        · intro _; exact Or.inl rfl
      · rw [if_neg h0, hP]
        omega
    · rw [if_neg hm, add_zero]
      have hxm : ¬ x = m := fun h => hm h.symm
      have hP := ih (Function.update deg m (deg m - 1)) x
      rw [Function.update_apply, if_neg hxm] at hP
      by_cases h0 : deg m - 1 = 0
      · rw [if_pos h0, List.mem_cons, hP]
        constructor
        · rintro (h | h)
          · exact absurd h hxm
          · exact h
        · intro h; exact Or.inr h
      · rw [if_neg h0, hP]

theorem processAdj_nodup (ms : List String) :
    ∀ deg : String → Int, (processAdj deg ms).2.Nodup := by
  induction ms with
  | nil => intro deg; simp [processAdj]
  | cons m rest ih =>
    intro deg
    rw [processAdj_cons_snd]
    by_cases h0 : deg m - 1 = 0
    · simp only [h0, if_true, List.nodup_cons]
      refine ⟨?_, ih _⟩
      intro hmem
      rw [processAdj_mem] at hmem
      rw [Function.update_same] at hmem
      omega
    · simp only [h0, if_false]
      exact ih _

/-! ## Precedence in a list -/

theorem before_append_left {l : List String} {a b : String} (h : Before l a b)
    (l' : List String) : Before (l ++ l') a b := by
  obtain ⟨l1, l2, rfl, ha⟩ := h
  exact ⟨l1, l2 ++ l', by simp, ha⟩

theorem before_snoc {l : List String} {a b : String} (ha : a ∈ l) :
    Before (l ++ [b]) a b :=
  ⟨l, [], rfl, ha⟩

theorem before_mem_left {l : List String} {a b : String} (h : Before l a b) : a ∈ l := by
  obtain ⟨l1, l2, rfl, ha⟩ := h
  exact List.mem_append_left _ ha

theorem before_mem_right {l : List String} {a b : String} (h : Before l a b) : b ∈ l := by
  obtain ⟨l1, l2, rfl, _⟩ := h
  simp

theorem before_irrefl {l : List String} (hnd : l.Nodup) (a : String) : ¬ Before l a a := by
  rintro ⟨l1, l2, rfl, ha⟩
  rw [List.nodup_append] at hnd
  exact hnd.2.2 ha (List.mem_cons_self a l2)

theorem nodup_split_unique {b : String} :
    ∀ {s1 t1 : List String} {s2 t2 : List String},
      (s1 ++ b :: s2).Nodup → s1 ++ b :: s2 = t1 ++ b :: t2 → s1 = t1 ∧ s2 = t2 := by
  intro s1
  induction s1 with
  | nil =>
    intro t1 s2 t2 hnd heq
    cases t1 with
    | nil => simpa using heq
    | cons c t1' =>
      exfalso
      simp only [List.nil_append, List.cons_append, List.cons.injEq] at heq
      obtain ⟨rfl, h2⟩ := heq
      rw [List.nil_append, List.nodup_cons] at hnd
      refine hnd.1 ?_
      rw [h2]
      exact List.mem_append_right _ (List.mem_cons_self _ _)
  | cons a s1' ih =>
    intro t1 s2 t2 hnd heq
    cases t1 with
    | nil =>
      exfalso
      simp only [List.nil_append, List.cons_append, List.cons.injEq] at heq
      obtain ⟨rfl, h2⟩ := heq
      rw [List.cons_append, List.nodup_cons] at hnd
      exact hnd.1 (List.mem_append_right _ (List.mem_cons_self _ _))
    | cons c t1' =>
      simp only [List.cons_append, List.cons.injEq] at heq
      obtain ⟨rfl, h2⟩ := heq
      rw [List.cons_append, List.nodup_cons] at hnd
      obtain ⟨h1, h2'⟩ := ih hnd.2 h2
      exact ⟨by rw [h1], h2'⟩

theorem before_trans {l : List String} (hnd : l.Nodup) {a b c : String}
    (h1 : Before l a b) (h2 : Before l b c) : Before l a c := by
  obtain ⟨l1, l2, he1, ha⟩ := h1
  obtain ⟨m1, m2, he2, hb⟩ := h2
  obtain ⟨p, q, hm1⟩ := List.append_of_mem hb
  subst hm1
  have : l = p ++ b :: (q ++ c :: m2) := by rw [he2]; simp
  have huniq := nodup_split_unique (he1 ▸ hnd) (he1.symm.trans this)
  refine ⟨p ++ b :: q, m2, by rw [he2], ?_⟩
  exact List.mem_append_left _ (huniq.1 ▸ ha)

/-- A list in which every edge goes strictly forward witnesses acyclicity:
the transitive closure of the edge relation is contained in strict
precedence, which is irreflexive on a duplicate-free list. -/
theorem transGen_before {l : List String} (hnd : l.Nodup) {R : String → String → Prop}
    (h : ∀ x y, R x y → Before l x y) {a b : String}
    (htg : Relation.TransGen R a b) : Before l a b := by
  induction htg with
  | single hr => exact h _ _ hr
  | tail _ hr ih => exact before_trans hnd ih (h _ _ hr)

/-- If every member of a nonempty finite set of nodes has an `R`-predecessor
inside the set, then `R` has a cycle. -/
theorem exists_cycle_of_descent (R : String → String → Prop) (U : List String)
    (hne : U ≠ []) (h : ∀ u ∈ U, ∃ v, v ∈ U ∧ R v u) :
    ∃ x, Relation.TransGen R x x := by
  classical
  obtain ⟨u0, hu0⟩ := List.exists_mem_of_ne_nil U hne
  set f : String → String := fun u =>
    if h' : ∃ v, v ∈ U ∧ R v u then h'.choose else u with hf_def
  have hf : ∀ u ∈ U, f u ∈ U ∧ R (f u) u := by
    intro u hu
    have h' := h u hu
    simp only [hf_def, dif_pos h']
    exact h'.choose_spec
  have hiter : ∀ k, f^[k] u0 ∈ U := by
    intro k
    induction k with
    | zero => simpa using hu0
    | succ k ih =>
      rw [Function.iterate_succ_apply']
      exact (hf _ ih).1
  have hstep : ∀ k, R (f^[k + 1] u0) (f^[k] u0) := by
    intro k
    rw [Function.iterate_succ_apply']
    exact (hf _ (hiter k)).2
  have hchain : ∀ j i, i < j → Relation.TransGen R (f^[j] u0) (f^[i] u0) := by
    intro j
    induction j with
    | zero => omega
    | succ j ihj =>
      intro i hij
      rcases Nat.lt_succ_iff_lt_or_eq.mp hij with h' | h'
      · exact Relation.TransGen.head (hstep j) (ihj i h')
      · subst h'; exact Relation.TransGen.single (hstep i)
  have hUpos : 0 < U.length := List.length_pos_of_ne_nil hne
  have hcard : Fintype.card (Fin U.length) < Fintype.card (Fin (U.length + 1)) := by
    simp
  obtain ⟨i, j, hne', heq⟩ :=
    Fintype.exists_ne_map_eq_of_card_lt
      (fun i : Fin (U.length + 1) =>
        (⟨U.indexOf (f^[(i : Nat)] u0), List.indexOf_lt_length.mpr (hiter i)⟩ : Fin U.length))
      hcard
  have heq' : f^[(i : Nat)] u0 = f^[(j : Nat)] u0 := by
    have hv := congrArg Fin.val heq
    simp only at hv
    exact (List.indexOf_inj (hiter i) (hiter j)).mp hv
  have hne'' : (i : Nat) ≠ (j : Nat) := fun h => hne' (Fin.ext h)
  rcases Nat.lt_or_ge (i : Nat) (j : Nat) with hij | hij
  · refine ⟨f^[(i : Nat)] u0, ?_⟩
    have hc := hchain (j : Nat) (i : Nat) hij
    rw [← heq'] at hc
    exact hc
  · have hij' : (j : Nat) < (i : Nat) := lt_of_le_of_ne hij (fun h => hne'' h.symm)
    refine ⟨f^[(j : Nat)] u0, ?_⟩
    have hc := hchain (i : Nat) (j : Nat) hij'
    rw [heq'] at hc
    exact hc

/-- A ranking function certifies acyclicity. -/
theorem acyclic_of_rank (edges : List Edge) (rank : String → Nat)
    (h : ∀ e ∈ edges, rank e.Source < rank e.Target) : Acyclic edges := by
  intro n hn
  have mono : ∀ a b, Relation.TransGen (edgeRel edges) a b → rank a < rank b := by
    intro a b htg
    induction htg with
    | single hr =>
      obtain ⟨e, he, hs, ht⟩ := hr
      exact hs ▸ ht ▸ h e he
    | tail _ hr ih =>
      obtain ⟨e, he, hs, ht⟩ := hr
      exact lt_trans ih (hs ▸ ht ▸ h e he)
  exact absurd (mono n n hn) (lt_irrefl _)

theorem cntEdge_pos {edges : List Edge} {n x : String} {e : Edge}
    (he : e ∈ edges) (hs : e.Source = n) (ht : e.Target = x) :
    1 ≤ cntEdge edges n x := by
  have hmem : e ∈ edges.filter (fun e => decide (e.Source = n ∧ e.Target = x)) :=
    List.mem_filter.mpr ⟨he, by simp [hs, ht]⟩
  have := List.length_pos_of_mem hmem
  simp only [cntEdge]
  omega

/-! ## The Kahn loop invariant -/

/-- Invariant of the `topoSort` main loop between iterations: the degree
table tracks un-processed incoming edges; processed and queued nodes are
fresh nodes of the graph; a node has been seen exactly when all its
dependencies are processed; and processed nodes respect edge precedence. -/
def Inv (edges : List Edge) (ns : List String) (deg : String → Int)
    (queue order : List String) : Prop :=
  (∀ x, deg x = inDeg edges x - incomingFrom edges order x) ∧
  (order ++ queue).Nodup ∧
  (∀ x ∈ order ++ queue, x ∈ ns) ∧
  (∀ x ∈ ns, (x ∈ order ∨ x ∈ queue) ↔ ∀ e ∈ edges, e.Target = x → e.Source ∈ order) ∧
  (∀ e ∈ edges, e.Target ∈ order → Before order e.Source e.Target)

theorem inv_step {edges : List Edge} {ns : List String}
    (hnsm : ∀ x, x ∈ nodesOf edges → x ∈ ns)
    {deg : String → Int} {n : String} {rest order : List String}
    (hinv : Inv edges ns deg (n :: rest) order) :
    Inv edges ns (processAdj deg (adjList edges n)).1
      (rest ++ (processAdj deg (adjList edges n)).2) (order ++ [n]) := by
  obtain ⟨I1, I2, I3, I4, I5⟩ := hinv
  have hnO : n ∉ order := by
    rw [List.nodup_append] at I2
    exact fun h => I2.2.2 h (List.mem_cons_self _ _)
  have hnn : n ∈ ns := I3 n (List.mem_append_right _ (List.mem_cons_self _ _))
  have hstar : ∀ e ∈ edges, e.Target = n → e.Source ∈ order :=
    (I4 n hnn).mp (Or.inr (List.mem_cons_self _ _))
  have hc : ∀ x, occ (adjList edges n) x = cntEdge edges n x :=
    fun x => cntEdge_eq_occ_adjList edges n x
  have I1' : ∀ x, (processAdj deg (adjList edges n)).1 x =
      inDeg edges x - incomingFrom edges (order ++ [n]) x := by
    intro x
    rw [processAdj_fst, I1, hc, incomingFrom_snoc edges x hnO]
    omega
  have hdegnn : ∀ x, 0 ≤ (processAdj deg (adjList edges n)).1 x := by
    intro x
    rw [I1' x]
    have := incomingFrom_le_inDeg edges (order ++ [n]) x
    omega
  have hreadyIff : ∀ x, x ∈ (processAdj deg (adjList edges n)).2 ↔
      deg x = cntEdge edges n x ∧ 1 ≤ cntEdge edges n x := by
    intro x
    rw [processAdj_mem]
    have h1 := processAdj_fst (adjList edges n) deg x
    have h2 := hdegnn x
    rw [h1] at h2
    rw [hc x] at h2 ⊢
    omega
  have hmem_deg0 : ∀ x ∈ ns, (x ∈ order ∨ x ∈ n :: rest) → deg x = 0 := by
    intro x hx hm
    have hall := (I4 x hx).mp hm
    rw [I1 x, incomingFrom_eq_inDeg hall]
    omega
  have hfresh : ∀ x ∈ (processAdj deg (adjList edges n)).2,
      x ∉ order ∧ x ∉ n :: rest ∧ x ∈ ns := by
    intro x hx
    have hd := (hreadyIff x).mp hx
    have hxA : x ∈ adjList edges n := by
      apply occ_pos_mem
      rw [hc]
      omega
    obtain ⟨e, he, hs, ht⟩ := mem_adjList_target hxA
    have hxn : x ∈ ns := hnsm x (ht ▸ mem_nodesOf_target he)
    refine ⟨?_, ?_, hxn⟩
    · intro hmem
      have := hmem_deg0 x hxn (Or.inl hmem)
      omega
    · intro hmem
      have := hmem_deg0 x hxn (Or.inr hmem)
      omega
  have I2' : ((order ++ [n]) ++ (rest ++ (processAdj deg (adjList edges n)).2)).Nodup := by
    have hI2b : ((order ++ [n]) ++ rest).Nodup := by
      have : order ++ n :: rest = (order ++ [n]) ++ rest := by simp
      rw [← this]
      exact I2
    have hassoc : (order ++ [n]) ++ (rest ++ (processAdj deg (adjList edges n)).2) =
        ((order ++ [n]) ++ rest) ++ (processAdj deg (adjList edges n)).2 := by
      simp [List.append_assoc]
    rw [hassoc, List.nodup_append]
    refine ⟨hI2b, processAdj_nodup _ _, ?_⟩
    intro a ha hb
    obtain ⟨hno, hnr, _⟩ := hfresh a hb
    rcases List.mem_append.mp ha with h1 | h1
    · rcases List.mem_append.mp h1 with h2 | h2
      · exact hno h2
      · exact hnr (by simpa using Or.inl (by simpa using h2))
    · exact hnr (List.mem_cons_of_mem _ h1)
  have I3' : ∀ x ∈ (order ++ [n]) ++ (rest ++ (processAdj deg (adjList edges n)).2),
      x ∈ ns := by
    intro x hx
    rcases List.mem_append.mp hx with h1 | h1
    · rcases List.mem_append.mp h1 with h2 | h2
      · exact I3 x (List.mem_append_left _ h2)
      · have : x = n := by simpa using h2
        exact this ▸ hnn
    · rcases List.mem_append.mp h1 with h2 | h2
      · exact I3 x (List.mem_append_right _ (List.mem_cons_of_mem _ h2))
      · exact (hfresh x h2).2.2
  have I4' : ∀ x ∈ ns,
      (x ∈ order ++ [n] ∨ x ∈ rest ++ (processAdj deg (adjList edges n)).2) ↔
      ∀ e ∈ edges, e.Target = x → e.Source ∈ order ++ [n] := by
    intro x hx
    constructor
    · intro hm
      have hcases : (x ∈ order ∨ x ∈ n :: rest) ∨
          x ∈ (processAdj deg (adjList edges n)).2 := by
        rcases hm with h1 | h1
        · rcases List.mem_append.mp h1 with h2 | h2
          · exact Or.inl (Or.inl h2)
          · exact Or.inl (Or.inr (by simpa using Or.inl (by simpa using h2)))
        · rcases List.mem_append.mp h1 with h2 | h2
          · exact Or.inl (Or.inr (List.mem_cons_of_mem _ h2))
          · exact Or.inr h2
      rcases hcases with h1 | h1
      · intro e he ht
        exact List.mem_append_left _ ((I4 x hx).mp h1 e he ht)
      · have hd := (hreadyIff x).mp h1
        have hz : (processAdj deg (adjList edges n)).1 x = 0 := by
          rw [processAdj_fst, hc]
          omega
        rw [I1' x] at hz
        have : incomingFrom edges (order ++ [n]) x = inDeg edges x := by omega
        exact all_incoming_of_eq_inDeg this
    · intro hall
      by_cases hallO : ∀ e ∈ edges, e.Target = x → e.Source ∈ order
      · rcases (I4 x hx).mpr hallO with h1 | h1
        · exact Or.inl (List.mem_append_left _ h1)
        · rcases List.mem_cons.mp h1 with rfl | h2
          · exact Or.inl (List.mem_append_right _ (List.mem_cons_self _ _))
          · exact Or.inr (List.mem_append_left _ h2)
      · push_neg at hallO
        obtain ⟨e, he, ht, hsO⟩ := hallO
        have hsn : e.Source = n := by
          rcases List.mem_append.mp (hall e he ht) with h1 | h1
          · exact absurd h1 hsO
          · simpa using h1
        have hcnt : 1 ≤ cntEdge edges n x := cntEdge_pos he hsn ht
        have hinc : incomingFrom edges (order ++ [n]) x = inDeg edges x :=
          incomingFrom_eq_inDeg (hall)
        have hsplit := incomingFrom_snoc edges x hnO
        have hdx : deg x = cntEdge edges n x := by
          rw [I1 x]
          omega
        exact Or.inr (List.mem_append_right _ ((hreadyIff x).mpr ⟨hdx, hcnt⟩))
  have I5' : ∀ e ∈ edges, e.Target ∈ order ++ [n] →
      Before (order ++ [n]) e.Source e.Target := by
    intro e he ht
    rcases List.mem_append.mp ht with hO | hn'
    · exact before_append_left (I5 e he hO) [n]
    · have htn : e.Target = n := by simpa using hn'
      exact htn ▸ before_snoc (hstar e he htn)
  exact ⟨I1', I2', I3', I4', I5'⟩

theorem kahnLoop_zero (adjf : String → List String) (deg : String → Int)
    (queue order : List String) : kahnLoop adjf 0 deg queue order = order := rfl

theorem kahnLoop_nil (adjf : String → List String) (fuel : Nat) (deg : String → Int)
    (order : List String) : kahnLoop adjf (fuel + 1) deg [] order = order := rfl

theorem kahnLoop_cons (adjf : String → List String) (fuel : Nat) (deg : String → Int)
    (n : String) (rest order : List String) :
    kahnLoop adjf (fuel + 1) deg (n :: rest) order =
      kahnLoop adjf fuel (processAdj deg (adjf n)).1
        (rest ++ (processAdj deg (adjf n)).2) (order ++ [n]) := rfl

/-- What a finished run of the Kahn loop guarantees: the produced order is a
duplicate-free selection of graph nodes, respects edge precedence, and is
closed under readiness (a node all of whose dependencies were processed was
itself processed). -/
def KPost (edges : List Edge) (ns : List String) (o : List String) : Prop :=
  o.Nodup ∧ (∀ x ∈ o, x ∈ ns) ∧
  (∀ e ∈ edges, e.Target ∈ o → Before o e.Source e.Target) ∧
  (∀ x ∈ ns, (∀ e ∈ edges, e.Target = x → e.Source ∈ o) → x ∈ o)

theorem kahnLoop_post {edges : List Edge} {ns : List String}
    (hnd : ns.Nodup) (hnsm : ∀ x, x ∈ nodesOf edges → x ∈ ns) :
    ∀ fuel (deg : String → Int) (queue order : List String),
      Inv edges ns deg queue order →
      ns.length + 1 ≤ order.length + fuel →
      KPost edges ns (kahnLoop (adjList edges) fuel deg queue order) := by
  intro fuel
  induction fuel with
  | zero =>
    intro deg queue order hinv hlen
    exfalso
    obtain ⟨_, I2, I3, _, _⟩ := hinv
    have hond : order.Nodup := (List.nodup_append.mp I2).1
    have hsub : order ⊆ ns := fun a ha => I3 a (List.mem_append_left _ ha)
    have := (hond.subperm hsub).length_le
    omega
  | succ fuel ih =>
    intro deg queue order hinv hlen
    cases queue with
    | nil =>
      obtain ⟨I1, I2, I3, I4, I5⟩ := hinv
      rw [kahnLoop_nil]
      rw [List.append_nil] at I2 I3
      refine ⟨I2, I3, I5, ?_⟩
      intro x hx hall
      rcases (I4 x hx).mpr hall with h | h
      · exact h
      · exact absurd h (List.not_mem_nil x)
    | cons n rest =>
      rw [kahnLoop_cons]
      refine ih _ _ _ (inv_step hnsm hinv) ?_
      simp only [List.length_append, List.length_singleton]
      omega

/-- The invariant holds at the start of both the `topoSort` and the
`dagExec` loop: nothing processed, and the queue holds exactly the
in-degree-zero nodes in `ns` order. -/
theorem inv_init {edges : List Edge} {ns : List String} (hns : NodeIter edges ns) :
    Inv edges ns (inDeg edges) (initQueue (inDeg edges) ns) [] := by
  obtain ⟨hnd, _⟩ := hns
  refine ⟨?_, ?_, ?_, ?_, ?_⟩
  · intro x
    rw [incomingFrom_nil]
    omega
  · rw [List.nil_append]
    exact hnd.filter _
  · intro x hx
    rw [List.nil_append] at hx
    exact List.mem_of_mem_filter hx
  · intro x hx
    constructor
    · intro hm
      rcases hm with h | h
      · exact absurd h (List.not_mem_nil x)
      · have hz : inDeg edges x = 0 := by
          have := List.of_mem_filter h
          simpa using this
        intro e he ht
        exact absurd ((inDeg_eq_zero_iff edges x).mp hz e he) (by simp [ht])
    · intro hall
      refine Or.inr (List.mem_filter.mpr ⟨hx, ?_⟩)
      have hz : inDeg edges x = 0 := by
        rw [inDeg_eq_zero_iff]
        intro e he ht
        exact absurd (hall e he ht) (List.not_mem_nil _)
      simp [initQueue, hz]
  · intro e he ht
    exact absurd ht (List.not_mem_nil _)

/-- Descent argument: in an acyclic graph, a set of nodes closed under
"all dependencies already in" contains every node. -/
theorem complete_of_closed {edges : List Edge} {ns : List String} (o : List String)
    (hnsm : ∀ x, x ∈ nodesOf edges → x ∈ ns) (hacyc : Acyclic edges)
    (hclosed : ∀ x ∈ ns, (∀ e ∈ edges, e.Target = x → e.Source ∈ o) → x ∈ o) :
    ∀ x ∈ ns, x ∈ o := by
  by_contra hnc
  push_neg at hnc
  obtain ⟨x0, hx0n, hx0o⟩ := hnc
  have hUmem : x0 ∈ ns.filter (fun y => decide (y ∉ o)) :=
    List.mem_filter.mpr ⟨hx0n, by simpa using hx0o⟩
  have hUne := List.ne_nil_of_mem hUmem
  have hdesc : ∀ u ∈ ns.filter (fun y => decide (y ∉ o)),
      ∃ v, v ∈ ns.filter (fun y => decide (y ∉ o)) ∧ edgeRel edges v u := by
    intro u hu
    obtain ⟨hun, huo⟩ := List.mem_filter.mp hu
    have huo' : u ∉ o := by simpa using huo
    have hne : ¬ ∀ e ∈ edges, e.Target = u → e.Source ∈ o :=
      fun h => huo' (hclosed u hun h)
    push_neg at hne
    obtain ⟨e, he, ht, hs⟩ := hne
    exact ⟨e.Source,
      List.mem_filter.mpr ⟨hnsm _ (mem_nodesOf_source he), by simpa using hs⟩,
      ⟨e, he, rfl, ht⟩⟩
  obtain ⟨x, hx⟩ := exists_cycle_of_descent (edgeRel edges) _ hUne hdesc
  exact hacyc x hx

/-- Master correctness theorem for `topoSort` on acyclic inputs: the run
succeeds, and the produced order is a duplicate-free enumeration of exactly
the node set in which every edge goes strictly forward. -/
theorem topoSort_master {edges : List Edge} {ns : List String}
    (hns : NodeIter edges ns) (hacyc : Acyclic edges) :
    ∃ o, topoSort edges ns = .ok o ∧ o.Nodup ∧ (∀ x, x ∈ o ↔ x ∈ ns) ∧
      ∀ e ∈ edges, Before o e.Source e.Target := by
  obtain ⟨hnd, hmem⟩ := hns
  have hnsm : ∀ x, x ∈ nodesOf edges → x ∈ ns := fun x h => (hmem x).mpr h
  have hpost := kahnLoop_post hnd hnsm (ns.length + edges.length + 1) (inDeg edges)
    (initQueue (inDeg edges) ns) [] (inv_init ⟨hnd, hmem⟩) (by simp)
  obtain ⟨hond, hosub, hobef, hoclosed⟩ := hpost
  have hcomplete := complete_of_closed _ hnsm hacyc hoclosed
  have hiff : ∀ x, x ∈ kahnLoop (adjList edges) (ns.length + edges.length + 1)
      (inDeg edges) (initQueue (inDeg edges) ns) [] ↔ x ∈ ns :=
    fun x => ⟨fun h => hosub x h, fun h => hcomplete x h⟩
  have hperm := (List.perm_ext_iff_of_nodup hond hnd).mpr hiff
  have hlen := hperm.length_eq
  have hts : topoSort edges ns = if (kahnLoop (adjList edges)
      (ns.length + edges.length + 1) (inDeg edges) (initQueue (inDeg edges) ns) []).length
        = ns.length
      then Except.ok (kahnLoop (adjList edges) (ns.length + edges.length + 1)
        (inDeg edges) (initQueue (inDeg edges) ns) [])
      else Except.error "cycle detected in dependency graph" := rfl
  refine ⟨_, ?_, hond, hiff, ?_⟩
  · rw [hts, if_pos hlen]
  · intro e he
    exact hobef e he ((hiff _).mpr (hnsm _ (mem_nodesOf_target he)))

/-- Master error theorem for `topoSort` on cyclic inputs: the run reports
the cycle error (and hence no order list at all). -/
theorem topoSort_cycle_master {edges : List Edge} {ns : List String}
    (hns : NodeIter edges ns) (hcyc : ∃ n, Relation.TransGen (edgeRel edges) n n) :
    topoSort edges ns = .error "cycle detected in dependency graph" := by
  obtain ⟨hnd, hmem⟩ := hns
  have hnsm : ∀ x, x ∈ nodesOf edges → x ∈ ns := fun x h => (hmem x).mpr h
  have hpost := kahnLoop_post hnd hnsm (ns.length + edges.length + 1) (inDeg edges)
    (initQueue (inDeg edges) ns) [] (inv_init ⟨hnd, hmem⟩) (by simp)
  obtain ⟨hond, hosub, hobef, _⟩ := hpost
  have hlenne : (kahnLoop (adjList edges) (ns.length + edges.length + 1) (inDeg edges)
      (initQueue (inDeg edges) ns) []).length ≠ ns.length := by
    intro heq
    have hperm := (hond.subperm (fun a ha => hosub a ha)).perm_of_length_le (le_of_eq heq.symm)
    have hbef : ∀ x y, edgeRel edges x y →
        Before (kahnLoop (adjList edges) (ns.length + edges.length + 1) (inDeg edges)
          (initQueue (inDeg edges) ns) []) x y := by
      rintro x y ⟨e, he, rfl, rfl⟩
      exact hobef e he (hperm.mem_iff.mpr (hnsm _ (mem_nodesOf_target he)))
    obtain ⟨n, hn⟩ := hcyc
    exact before_irrefl hond n (transGen_before hond hbef hn)
  have hts : topoSort edges ns = if (kahnLoop (adjList edges)
      (ns.length + edges.length + 1) (inDeg edges) (initQueue (inDeg edges) ns) []).length
        = ns.length
      then Except.ok (kahnLoop (adjList edges) (ns.length + edges.length + 1)
        (inDeg edges) (initQueue (inDeg edges) ns) [])
      else Except.error "cycle detected in dependency graph" := rfl
  rw [hts, if_neg hlenne]

/-! ## Edge reversal -/

theorem mem_nodesOf_reverse (edges : List Edge) (x : String) :
    x ∈ nodesOf (reverseEdges edges) ↔ x ∈ nodesOf edges := by
  simp only [nodesOf, reverseEdges, List.mem_dedup, List.mem_append, List.mem_map]
  constructor
  · rintro (⟨e, ⟨e', he', rfl⟩, h⟩ | ⟨e, ⟨e', he', rfl⟩, h⟩)
    · exact Or.inr ⟨e', he', h⟩
    · exact Or.inl ⟨e', he', h⟩
  · rintro (⟨e, he, h⟩ | ⟨e, he, h⟩)
    · exact Or.inr ⟨⟨e.Target, e.Source⟩, ⟨e, he, rfl⟩, h⟩
    · exact Or.inl ⟨⟨e.Target, e.Source⟩, ⟨e, he, rfl⟩, h⟩

theorem edgeRel_reverse (edges : List Edge) (a b : String) :
    edgeRel (reverseEdges edges) a b ↔ edgeRel edges b a := by
  constructor
  · rintro ⟨e, he, hs, ht⟩
    rw [reverseEdges, List.mem_map] at he
    obtain ⟨e', he', rfl⟩ := he
    exact ⟨e', he', ht, hs⟩
  · rintro ⟨e, he, hs, ht⟩
    exact ⟨⟨e.Target, e.Source⟩, List.mem_map_of_mem _ he, ht, hs⟩

theorem acyclic_reverse (edges : List Edge) (h : Acyclic edges) :
    Acyclic (reverseEdges edges) := by
  intro n hn
  have hswap : Relation.TransGen (Function.swap (edgeRel edges)) n n := by
    refine Relation.TransGen.mono ?_ hn
    intro a b hab
    exact (edgeRel_reverse edges a b).mp hab
  rw [Relation.transGen_swap] at hswap
  exact h n hswap

/-! ## Claims C1, C5, C6 -/

/-- **C1**: for every acyclic edge set (and every iteration order of the node
map), `topoSort` succeeds and returns a duplicate-free permutation of exactly
the set of nodes appearing as an endpoint of some edge, in which every edge's
Source occurs strictly before its Target. -/
theorem claim_C1_topoSort_acyclic (edges : List Edge) (ns : List String)
    (hns : NodeIter edges ns) (hacyc : Acyclic edges) :
    ∃ o, topoSort edges ns = .ok o ∧ o.Nodup ∧ (∀ x, x ∈ o ↔ x ∈ nodesOf edges) ∧
      o.Perm (nodesOf edges) ∧ ∀ e ∈ edges, Before o e.Source e.Target := by
  obtain ⟨o, hok, hond, hiff, hbef⟩ := topoSort_master hns hacyc
  have hiff' : ∀ x, x ∈ o ↔ x ∈ nodesOf edges := fun x => (hiff x).trans (hns.2 x)
  exact ⟨o, hok, hond, hiff',
    (List.perm_ext_iff_of_nodup hond (List.nodup_dedup _)).mpr hiff', hbef⟩

/-- Witness for C1 at the concrete acyclic edge set `{(a, b)}`. -/
theorem claim_C1_topoSort_acyclic_witness :
    NodeIter [Edge.mk "a" "b"] (nodesOf [Edge.mk "a" "b"]) ∧
    Acyclic [Edge.mk "a" "b"] ∧
    ∃ o, topoSort [Edge.mk "a" "b"] (nodesOf [Edge.mk "a" "b"]) = .ok o ∧
      o.Nodup ∧ (∀ x, x ∈ o ↔ x ∈ nodesOf [Edge.mk "a" "b"]) ∧
      o.Perm (nodesOf [Edge.mk "a" "b"]) ∧
      ∀ e ∈ [Edge.mk "a" "b"], Before o e.Source e.Target := by
  have h1 : NodeIter [Edge.mk "a" "b"] (nodesOf [Edge.mk "a" "b"]) :=
    ⟨by decide, fun x => Iff.rfl⟩
  have h2 : Acyclic [Edge.mk "a" "b"] :=
    acyclic_of_rank _ (fun s => if s = "a" then 0 else 1) (by decide)
  exact ⟨h1, h2, claim_C1_topoSort_acyclic _ _ h1 h2⟩

/-- **C5**: for every edge set containing a cycle, `topoSort` returns the
cycle error (so no order list, not even a partial one, is produced). -/
theorem claim_C5_topoSort_cycle (edges : List Edge) (ns : List String)
    (hns : NodeIter edges ns) (hcyc : ∃ n, Relation.TransGen (edgeRel edges) n n) :
    topoSort edges ns = .error "cycle detected in dependency graph" :=
  topoSort_cycle_master hns hcyc

/-- Witness for C5 at the concrete 2-cycle `{(a, b), (b, a)}`. -/
theorem claim_C5_topoSort_cycle_witness :
    NodeIter [Edge.mk "a" "b", Edge.mk "b" "a"]
      (nodesOf [Edge.mk "a" "b", Edge.mk "b" "a"]) ∧
    (∃ n, Relation.TransGen (edgeRel [Edge.mk "a" "b", Edge.mk "b" "a"]) n n) ∧
    topoSort [Edge.mk "a" "b", Edge.mk "b" "a"]
      (nodesOf [Edge.mk "a" "b", Edge.mk "b" "a"]) =
      .error "cycle detected in dependency graph" := by
  have h1 : NodeIter [Edge.mk "a" "b", Edge.mk "b" "a"]
      (nodesOf [Edge.mk "a" "b", Edge.mk "b" "a"]) := ⟨by decide, fun x => Iff.rfl⟩
  have hab : edgeRel [Edge.mk "a" "b", Edge.mk "b" "a"] "a" "b" :=
    ⟨Edge.mk "a" "b", List.mem_cons_self _ _, rfl, rfl⟩
  have hba : edgeRel [Edge.mk "a" "b", Edge.mk "b" "a"] "b" "a" :=
    ⟨Edge.mk "b" "a", List.mem_cons_of_mem _ (List.mem_cons_self _ _), rfl, rfl⟩
  have h2 : ∃ n, Relation.TransGen (edgeRel [Edge.mk "a" "b", Edge.mk "b" "a"]) n n :=
    ⟨"a", Relation.TransGen.tail (Relation.TransGen.single hab) hba⟩
  exact ⟨h1, h2, claim_C5_topoSort_cycle _ _ h1 h2⟩

/-- **C6**: on acyclic inputs, `topoSort` with `reverse = true` first swaps
Source and Target of every edge (a pure transform, applied before any
in-degree computation) and then orders; consequently for every *original*
edge `(s, t)`, `t` occurs strictly before `s` in the result. -/
theorem claim_C6_topoSort_reverse (edges : List Edge) (ns : List String)
    (hns : NodeIter edges ns) (hacyc : Acyclic edges) :
    topoSortRev edges true ns = topoSort (reverseEdges edges) ns ∧
    ∃ o, topoSortRev edges true ns = .ok o ∧
      ∀ e ∈ edges, Before o e.Target e.Source := by
  have hns' : NodeIter (reverseEdges edges) ns :=
    ⟨hns.1, fun x => (hns.2 x).trans (mem_nodesOf_reverse edges x).symm⟩
  have hacyc' := acyclic_reverse edges hacyc
  obtain ⟨o, hok, _, _, hbef⟩ := topoSort_master hns' hacyc'
  refine ⟨rfl, o, hok, ?_⟩
  intro e he
  exact hbef (⟨e.Target, e.Source⟩ : Edge) (List.mem_map_of_mem _ he)

/-- Witness for C6 at the concrete acyclic edge set `{(a, b)}`. -/
theorem claim_C6_topoSort_reverse_witness :
    NodeIter [Edge.mk "a" "b"] (nodesOf [Edge.mk "a" "b"]) ∧
    Acyclic [Edge.mk "a" "b"] ∧
    (topoSortRev [Edge.mk "a" "b"] true (nodesOf [Edge.mk "a" "b"]) =
      topoSort (reverseEdges [Edge.mk "a" "b"]) (nodesOf [Edge.mk "a" "b"]) ∧
    ∃ o, topoSortRev [Edge.mk "a" "b"] true (nodesOf [Edge.mk "a" "b"]) = .ok o ∧
      ∀ e ∈ [Edge.mk "a" "b"], Before o e.Target e.Source) := by
  have h1 : NodeIter [Edge.mk "a" "b"] (nodesOf [Edge.mk "a" "b"]) :=
    ⟨by decide, fun x => Iff.rfl⟩
  have h2 : Acyclic [Edge.mk "a" "b"] :=
    acyclic_of_rank _ (fun s => if s = "a" then 0 else 1) (by decide)
  exact ⟨h1, h2, claim_C6_topoSort_reverse _ _ h1 h2⟩

/-! ## The parallel executor `dagExec` (exec.go)

`dagExec` builds adjacency and in-degree tables exactly as `topoSort` does,
then runs Kahn's algorithm in *waves*: every node of the current ready slice
is dispatched as a goroutine, the next ready slice is computed by
decrementing neighbor in-degrees, `wg.Wait()` joins the whole wave, and only
then is the 1-buffered `errCh` polled.  Consequences modelled faithfully
below:

* the context is `ctx := context.Background()` — created once, passed to
  every `exec.CommandContext` invocation, and never cancelled (`dagExec`
  creates no cancel function);
* a failing command sends its raw error on `errCh` (capacity 1).  With a
  single failure in a wave, the post-wave poll receives it and `dagExec`
  returns that error, dispatching no further wave.  With two or more
  failures in the same wave, the second send blocks forever on the full
  channel; since that goroutine's deferred `wg.Done` can then never run,
  `wg.Wait` never returns — the run neither returns nor dispatches again
  (outcome `stuck`);
* the `done` map is written but never read, so it has no observable effect
  and is not modelled;
* `maxParallel` only sizes the semaphore channel `sem`, bounding how many of
  a wave's commands run simultaneously; it does not affect which commands
  run, the wave structure, or the outcome, so it does not appear here (the
  semaphore itself is modelled separately as `semRun`). -/

/-- The Go context threaded into every command invocation.
`dagExec` only ever creates `context.Background()`. -/
inductive Ctx where
  | background
deriving DecidableEq, Repr

/-- Whether a context carries a cancellation signal; a background context
never does, and `dagExec` installs no cancel function. -/
def Ctx.isCancelled : Ctx → Bool
  | .background => false

/-- The single context value created by `ctx := context.Background()`. -/
def dagCtx : Ctx := Ctx.background

/-- Observable outcome of a `dagExec` run: normal success (`return nil`),
an error return, or the blocked-`errCh` deadlock described above. -/
inductive ExecOutcome (ε : Type) where
  | ok : ExecOutcome ε
  | err : ε → ExecOutcome ε
  | stuck : ExecOutcome ε
deriving DecidableEq, Repr

/-- The per-wave neighbor processing of `dagExec`'s dispatch loop: for each
ready node in order, decrement its targets and collect those that reach
zero (the `next` slice). -/
def processWave (adjf : String → List String) (deg : String → Int) :
    List String → (String → Int) × List String
  | [] => (deg, [])
  | n :: rest =>
    let p := processAdj deg (adjf n)
    let q := processWave adjf p.1 rest
    (q.1, p.2 ++ q.2)

/-- The wave loop of `dagExec`.  `act ctx dir` is the outcome of running the
configured command in directory `dir` under context `ctx` (`none` means the
command succeeded).  Returns the outcome together with the waves actually
dispatched, in dispatch order; within each wave the nodes are listed in
the order their goroutines are spawned. -/
def dagExecLoop {ε : Type} (adjf : String → List String) (act : Ctx → String → Option ε) :
    Nat → (String → Int) → List String → ExecOutcome ε × List (List String)
  | 0, _, _ => (.ok, [])
  | fuel + 1, deg, ready =>
    match ready with
    | [] => (.ok, [])
    | n :: rest =>
      let p := processWave adjf deg (n :: rest)
      match (n :: rest).filterMap (act dagCtx) with
      | [] =>
        let r := dagExecLoop adjf act fuel p.1 p.2
        (r.1, (n :: rest) :: r.2)
      | [e] => (.err e, [n :: rest])
      | _ :: _ :: _ => (.stuck, [n :: rest])

/-- `func dagExec(edges []Edge, execCmd string, maxParallel int) error`:
table construction and initial ready slice are identical to `topoSort`
(`ns` is the node-map iteration order), followed by the wave loop.  The
fuel `ns.length + 1` is sufficient: every dispatched wave is nonempty and
waves never repeat a node. -/
def dagExec {ε : Type} (edges : List Edge) (act : Ctx → String → Option ε)
    (ns : List String) : ExecOutcome ε × List (List String) :=
  dagExecLoop (adjList edges) act (ns.length + 1) (inDeg edges)
    (initQueue (inDeg edges) ns)

theorem dagExecLoop_zero {ε : Type} (adjf : String → List String)
    (act : Ctx → String → Option ε) (deg : String → Int) (ready : List String) :
    dagExecLoop adjf act 0 deg ready = (.ok, []) := rfl

theorem dagExecLoop_nil {ε : Type} (adjf : String → List String)
    (act : Ctx → String → Option ε) (fuel : Nat) (deg : String → Int) :
    dagExecLoop adjf act (fuel + 1) deg [] = (.ok, []) := rfl

theorem dagExecLoop_cons_ok {ε : Type} (adjf : String → List String)
    (act : Ctx → String → Option ε) (fuel : Nat) (deg : String → Int)
    (n : String) (rest : List String)
    (hf : (n :: rest).filterMap (act dagCtx) = []) :
    dagExecLoop adjf act (fuel + 1) deg (n :: rest) =
      ((dagExecLoop adjf act fuel (processWave adjf deg (n :: rest)).1
          (processWave adjf deg (n :: rest)).2).1,
        (n :: rest) :: (dagExecLoop adjf act fuel (processWave adjf deg (n :: rest)).1
          (processWave adjf deg (n :: rest)).2).2) := by
  simp only [dagExecLoop, hf]

theorem dagExecLoop_cons_err {ε : Type} (adjf : String → List String)
    (act : Ctx → String → Option ε) (fuel : Nat) (deg : String → Int)
    (n : String) (rest : List String) (e : ε)
    (hf : (n :: rest).filterMap (act dagCtx) = [e]) :
    dagExecLoop adjf act (fuel + 1) deg (n :: rest) = (.err e, [n :: rest]) := by
  simp only [dagExecLoop, hf]

theorem dagExecLoop_cons_stuck {ε : Type} (adjf : String → List String)
    (act : Ctx → String → Option ε) (fuel : Nat) (deg : String → Int)
    (n : String) (rest : List String) (e1 e2 : ε) (tl : List ε)
    (hf : (n :: rest).filterMap (act dagCtx) = e1 :: e2 :: tl) :
    dagExecLoop adjf act (fuel + 1) deg (n :: rest) = (.stuck, [n :: rest]) := by
  simp only [dagExecLoop, hf]

/-- Processing a whole wave preserves the loop invariant: the wave loop's
decrement pass is the FIFO step iterated over the wave's nodes. -/
theorem inv_processWave {edges : List Edge} {ns : List String}
    (hnsm : ∀ x, x ∈ nodesOf edges → x ∈ ns) :
    ∀ (wave : List String) (deg : String → Int) (tail D : List String),
      Inv edges ns deg (wave ++ tail) D →
      Inv edges ns (processWave (adjList edges) deg wave).1
        (tail ++ (processWave (adjList edges) deg wave).2) (D ++ wave) := by
  intro wave
  induction wave with
  | nil =>
    intro deg tail D hinv
    simpa [processWave] using hinv
  | cons n w ih =>
    intro deg tail D hinv
    have hinv' : Inv edges ns deg (n :: (w ++ tail)) D := hinv
    have hstep := inv_step hnsm hinv'
    rw [List.append_assoc] at hstep
    have hih := ih (processAdj deg (adjList edges n)).1
      (tail ++ (processAdj deg (adjList edges n)).2) (D ++ [n]) hstep
    rw [List.append_assoc] at hih
    have h2 : (D ++ [n]) ++ w = D ++ (n :: w) := by simp
    rw [h2] at hih
    exact hih

/-- What any run of the executor wave loop guarantees, given that the nodes
of `D` were dispatched (and their waves completed) before the run: wave
structure, freshness, wave-level precedence, liveness under an
all-succeeding action, and the failure anatomy of the three outcomes. -/
def DagPost {ε : Type} (edges : List Edge) (ns : List String)
    (act : Ctx → String → Option ε) (D : List String)
    (r : ExecOutcome ε × List (List String)) : Prop :=
  (∀ w ∈ r.2, w ≠ []) ∧
  (D ++ r.2.flatten).Nodup ∧
  (∀ x ∈ r.2.flatten, x ∈ ns) ∧
  (∀ e ∈ edges, ∀ (i : Nat) (hi : i < r.2.length), e.Target ∈ r.2[i] →
    e.Source ∈ D ∨ ∃ j, ∃ hj : j < r.2.length, j < i ∧ e.Source ∈ r.2[j]) ∧
  ((∀ d, act dagCtx d = none) →
    r.1 = .ok ∧
    ∀ x ∈ ns, (∀ e ∈ edges, e.Target = x → e.Source ∈ D ++ r.2.flatten) →
      x ∈ D ++ r.2.flatten) ∧
  (∀ e', r.1 = .err e' →
    ∃ pre w, r.2 = pre ++ [w] ∧ (∀ w' ∈ pre, w'.filterMap (act dagCtx) = []) ∧
      w.filterMap (act dagCtx) = [e']) ∧
  (r.1 = .stuck →
    ∃ pre w, r.2 = pre ++ [w] ∧ (∀ w' ∈ pre, w'.filterMap (act dagCtx) = []) ∧
      2 ≤ (w.filterMap (act dagCtx)).length) ∧
  (r.1 = .ok → ∀ w ∈ r.2, w.filterMap (act dagCtx) = [])

theorem dagLoop_master {ε : Type} {edges : List Edge} {ns : List String}
    (act : Ctx → String → Option ε)
    (hnsm : ∀ x, x ∈ nodesOf edges → x ∈ ns) :
    ∀ fuel (deg : String → Int) (ready D : List String),
      Inv edges ns deg ready D →
      ns.length + 1 ≤ D.length + fuel →
      DagPost edges ns act D (dagExecLoop (adjList edges) act fuel deg ready) := by
  intro fuel
  induction fuel with
  | zero =>
    intro deg ready D hinv hlen
    exfalso
    obtain ⟨_, I2, I3, _, _⟩ := hinv
    have hond := (List.nodup_append.mp I2).1
    have hsub : D ⊆ ns := fun a ha => I3 a (List.mem_append_left _ ha)
    have := (hond.subperm hsub).length_le
    omega
  | succ fuel ih =>
    intro deg ready D hinv hlen
    cases ready with
    | nil =>
      rw [dagExecLoop_nil]
      obtain ⟨I1, I2, I3, I4, I5⟩ := hinv
      rw [List.append_nil] at I2 I3
      refine ⟨by simp, by simpa using I2, by simp, ?_, ?_, ?_, ?_, ?_⟩
      · intro e he i hi
        simp at hi
      · intro _
        refine ⟨rfl, ?_⟩
        intro x hx hall
        have hall' : ∀ e ∈ edges, e.Target = x → e.Source ∈ D := by
          intro e he ht
          have := hall e he ht
          simpa using this
        rcases (I4 x hx).mpr hall' with h | h
        · simpa using h
        · exact absurd h (List.not_mem_nil x)
      · intro e' h
        exact absurd h (by simp)
      · intro h
        exact absurd h (by simp)
      · intro _ w hw
        exact absurd hw (List.not_mem_nil w)
    | cons n rest =>
      obtain ⟨I1, I2, I3, I4, I5⟩ := hinv
      have hWns : ∀ x ∈ n :: rest, x ∈ ns :=
        fun x hx => I3 x (List.mem_append_right _ hx)
      have hWdeps : ∀ x ∈ n :: rest, ∀ e ∈ edges, e.Target = x → e.Source ∈ D :=
        fun x hx => (I4 x (hWns x hx)).mp (Or.inr hx)
      cases hfs : (n :: rest).filterMap (act dagCtx) with
      | nil =>
        rw [dagExecLoop_cons_ok _ _ _ _ _ _ hfs]
        have hinvW : Inv edges ns deg ((n :: rest) ++ []) D := by
          rw [List.append_nil]
          exact ⟨I1, I2, I3, I4, I5⟩
        have hinv2 : Inv edges ns (processWave (adjList edges) deg (n :: rest)).1
            ([] ++ (processWave (adjList edges) deg (n :: rest)).2)
            (D ++ (n :: rest)) :=
          inv_processWave hnsm (n :: rest) deg [] D hinvW
        rw [List.nil_append] at hinv2
        have hlen2 : ns.length + 1 ≤ (D ++ (n :: rest)).length + fuel := by
          simp only [List.length_append, List.length_cons]
          omega
        obtain ⟨Q1, Q2, Q3, Q4, Q5, Q6, Q7, Q8⟩ := ih _ _ _ hinv2 hlen2
        refine ⟨?_, ?_, ?_, ?_, ?_, ?_, ?_, ?_⟩
        · intro w hw
          rcases List.mem_cons.mp hw with rfl | hw'
          · exact List.cons_ne_nil _ _
          · exact Q1 w hw'
        · rw [List.flatten_cons, ← List.append_assoc]
          exact Q2
        · intro x hx
          rw [List.flatten_cons] at hx
          rcases List.mem_append.mp hx with h | h
          · exact hWns x h
          · exact Q3 x h
        · intro e he i hi ht
          cases i with
          | zero =>
            rw [List.getElem_cons_zero] at ht
            exact Or.inl (hWdeps _ ht e he rfl)
          | succ i =>
            rw [List.getElem_cons_succ] at ht
            have hi' : i < (dagExecLoop (adjList edges) act fuel
                (processWave (adjList edges) deg (n :: rest)).1
                (processWave (adjList edges) deg (n :: rest)).2).2.length := by
              simpa using Nat.lt_of_succ_lt_succ hi
            rcases Q4 e he i hi' ht with h | ⟨j, hj, hji, hsj⟩
            · rcases List.mem_append.mp h with h' | h'
              · exact Or.inl h'
              · refine Or.inr ⟨0, by simp, Nat.succ_pos _, ?_⟩
                rw [List.getElem_cons_zero]
                exact h'
            · refine Or.inr ⟨j + 1, by simpa using Nat.succ_lt_succ hj,
                Nat.succ_lt_succ hji, ?_⟩
              rw [List.getElem_cons_succ]
              exact hsj
        · intro hact
          obtain ⟨hok, hclosed⟩ := Q5 hact
          refine ⟨hok, ?_⟩
          intro x hx hall
          have hall' : ∀ e ∈ edges, e.Target = x →
              e.Source ∈ (D ++ (n :: rest)) ++ (dagExecLoop (adjList edges) act fuel
                (processWave (adjList edges) deg (n :: rest)).1
                (processWave (adjList edges) deg (n :: rest)).2).2.flatten := by
            intro e he ht
            have := hall e he ht
            rw [List.flatten_cons, ← List.append_assoc] at this
            exact this
          have := hclosed x hx hall'
          rw [List.flatten_cons, ← List.append_assoc]
          exact this
        · intro e' he'
          obtain ⟨pre, w, hsplit, hpre, hw⟩ := Q6 e' he'
          refine ⟨(n :: rest) :: pre, w, ?_, ?_, hw⟩
          · simp only [hsplit, List.cons_append]
          · intro w' hw'
            rcases List.mem_cons.mp hw' with rfl | h
            · exact hfs
            · exact hpre w' h
        · intro hst
          obtain ⟨pre, w, hsplit, hpre, hw⟩ := Q7 hst
          refine ⟨(n :: rest) :: pre, w, ?_, ?_, hw⟩
          · simp only [hsplit, List.cons_append]
          · intro w' hw'
            rcases List.mem_cons.mp hw' with rfl | h
            · exact hfs
            · exact hpre w' h
        · intro hok w hw
          rcases List.mem_cons.mp hw with rfl | h
          · exact hfs
          · exact Q8 hok w h
      | cons e1 tl =>
        cases tl with
        | nil =>
          rw [dagExecLoop_cons_err _ _ _ _ _ _ e1 hfs]
          refine ⟨?_, ?_, ?_, ?_, ?_, ?_, ?_, ?_⟩
          · intro w hw
            rcases List.mem_cons.mp hw with rfl | h
            · exact List.cons_ne_nil _ _
            · exact absurd h (List.not_mem_nil w)
          · simpa using I2
          · intro x hx
            have : x ∈ n :: rest := by simpa using hx
            exact hWns x this
          · intro e he i hi ht
            have hi0 : i = 0 := by simpa using Nat.lt_one_iff.mp (by simpa using hi)
            subst hi0
            rw [List.getElem_cons_zero] at ht
            exact Or.inl (hWdeps _ ht e he rfl)
          · intro hact
            exfalso
            have : (n :: rest).filterMap (act dagCtx) = [] :=
              List.filterMap_eq_nil_iff.mpr (fun a _ => hact a)
            rw [hfs] at this
            exact List.cons_ne_nil _ _ this
          · intro e' he'
            have he1 : e1 = e' := by
              have := he'
              simp only [ExecOutcome.err.injEq] at this
              exact this
            exact ⟨[], n :: rest, rfl, fun w' hw' => absurd hw' (List.not_mem_nil _),
              he1 ▸ hfs⟩
          · intro h
            exact absurd h (by simp)
          · intro h
            exact absurd h (by simp)
        | cons e2 tl2 =>
          rw [dagExecLoop_cons_stuck _ _ _ _ _ _ e1 e2 tl2 hfs]
          refine ⟨?_, ?_, ?_, ?_, ?_, ?_, ?_, ?_⟩
          · intro w hw
            rcases List.mem_cons.mp hw with rfl | h
            · exact List.cons_ne_nil _ _
            · exact absurd h (List.not_mem_nil w)
          · simpa using I2
          · intro x hx
            have : x ∈ n :: rest := by simpa using hx
            exact hWns x this
          · intro e he i hi ht
            have hi0 : i = 0 := by simpa using Nat.lt_one_iff.mp (by simpa using hi)
            subst hi0
            rw [List.getElem_cons_zero] at ht
            exact Or.inl (hWdeps _ ht e he rfl)
          · intro hact
            exfalso
            have : (n :: rest).filterMap (act dagCtx) = [] :=
              List.filterMap_eq_nil_iff.mpr (fun a _ => hact a)
            rw [hfs] at this
            exact List.cons_ne_nil _ _ this
          · intro e' he'
            exact absurd he' (by simp)
          · intro _
            refine ⟨[], n :: rest, rfl, fun w' hw' => absurd hw' (List.not_mem_nil _), ?_⟩
            rw [hfs]
            simp
          · intro h
            exact absurd h (by simp)

/-- The wave-loop guarantees, at the top entry point `dagExec`. -/
theorem dagExec_post {ε : Type} {edges : List Edge} {ns : List String}
    (act : Ctx → String → Option ε) (hns : NodeIter edges ns) :
    DagPost edges ns act [] (dagExec edges act ns) := by
  obtain ⟨hnd, hmem⟩ := hns
  exact dagLoop_master act (fun x h => (hmem x).mpr h) (ns.length + 1) (inDeg edges)
    (initQueue (inDeg edges) ns) [] (inv_init ⟨hnd, hmem⟩) (by simp)

/-- In a duplicate-free flattened wave list, a node belongs to at most one
wave. -/
theorem unique_wave {ws : List (List String)} (h : ws.flatten.Nodup)
    {x : String} {i j : Nat} (hi : i < ws.length) (hj : j < ws.length)
    (hxi : x ∈ ws[i]) (hxj : x ∈ ws[j]) : i = j := by
  by_contra hne
  rw [List.nodup_flatten] at h
  obtain ⟨_, hpw⟩ := h
  rw [List.pairwise_iff_getElem] at hpw
  rcases Nat.lt_or_ge i j with hlt | hge
  · exact hpw i j hi hj hlt hxi hxj
  · exact hpw j i hj hi (lt_of_le_of_ne hge (fun h' => hne h'.symm)) hxj hxi

/-- Wave-level precedence lifts through the transitive closure of the edge
relation. -/
theorem transGen_wave_chain {edges : List Edge} {ws : List (List String)}
    (hprec : ∀ e ∈ edges, ∀ (i : Nat) (hi : i < ws.length), e.Target ∈ ws[i] →
      ∃ j, ∃ hj : j < ws.length, j < i ∧ e.Source ∈ ws[j]) :
    ∀ x y, Relation.TransGen (edgeRel edges) x y →
      ∀ (i : Nat) (hi : i < ws.length), y ∈ ws[i] →
        ∃ j, ∃ hj : j < ws.length, j < i ∧ x ∈ ws[j] := by
  intro x y htg
  induction htg with
  | single hr =>
    obtain ⟨e, he, hs, ht⟩ := hr
    intro i hi hyi
    obtain ⟨j, hj, hji, hsj⟩ := hprec e he i hi (by rw [ht]; exact hyi)
    rw [hs] at hsj
    exact ⟨j, hj, hji, hsj⟩
  | tail _ hr ih =>
    obtain ⟨e, he, hs, ht⟩ := hr
    intro i hi hyi
    obtain ⟨j, hj, hji, hbj⟩ := hprec e he i hi (by rw [ht]; exact hyi)
    rw [hs] at hbj
    obtain ⟨k, hk, hkj, hxk⟩ := ih j hj hbj
    exact ⟨k, hk, lt_trans hkj hji, hxk⟩

/-! ## The semaphore `sem := make(chan struct{}, maxParallel)`

Every `runNode` goroutine runs its command strictly between `sem <- struct{}{}`
and `<-sem`.  A buffered channel of capacity `P` blocks a send while `P`
values are buffered and blocks a receive while none are, so the observable
entry/exit traces are exactly those accepted by `semRun`. -/

/-- Entry to / exit from the semaphore-guarded command invocation. -/
inductive SemEv where
  | enter (dir : String)
  | leave (dir : String)
deriving DecidableEq, Repr

/-- Channel semantics of the `maxParallel`-buffered semaphore: from
occupancy `c`, an `enter` (send) can proceed only while `c < P`, a `leave`
(receive) only while `0 < c`.  A trace whose next event would block has no
defined occupancy (`none`): it cannot be observed. -/
def semRun (P : Nat) : Nat → List SemEv → Option Nat
  | c, [] => some c
  | c, SemEv.enter _ :: tr => if c < P then semRun P (c + 1) tr else none
  | c, SemEv.leave _ :: tr => if 0 < c then semRun P (c - 1) tr else none

/-- Along any observable trace the occupancy — the number of simultaneously
running commands — never exceeds `P` at any prefix. -/
theorem semRun_prefix_le (P : Nat) :
    ∀ (pre suf : List SemEv) (c : Nat), c ≤ P →
      semRun P c (pre ++ suf) ≠ none →
      ∃ cm, semRun P c pre = some cm ∧ cm ≤ P := by
  intro pre
  induction pre with
  | nil =>
    intro suf c hc _
    exact ⟨c, rfl, hc⟩
  | cons ev tr ih =>
    intro suf c hc hrun
    rw [List.cons_append] at hrun
    cases ev with
    | enter d =>
      simp only [semRun] at hrun ⊢
      by_cases h : c < P
      · rw [if_pos h] at hrun ⊢
        exact ih suf (c + 1) (by omega) hrun
      · rw [if_neg h] at hrun
        exact absurd rfl hrun
    | leave d =>
      simp only [semRun] at hrun ⊢
      by_cases h : 0 < c
      · rw [if_pos h] at hrun ⊢
        exact ih suf (c - 1) (by omega) hrun
      · rw [if_neg h] at hrun
        exact absurd rfl hrun

/-! ## Claims C2, C3, C4, C7, C8, C9 -/

/-- **C2**: in every run of `dagExec`, a node is dispatched only in a wave
strictly later than the wave of each of its dependencies; since the loop
joins every wave (`wg.Wait`) before dispatching the next, each dependency's
action has completed before the dependent is dispatched. -/
theorem claim_C2_dagExec_ordering {ε : Type} (edges : List Edge) (ns : List String)
    (act : Ctx → String → Option ε) (hns : NodeIter edges ns) :
    ∀ e ∈ edges, ∀ (i : Nat) (hi : i < (dagExec edges act ns).2.length),
      e.Target ∈ (dagExec edges act ns).2[i] →
      ∃ j, ∃ hj : j < (dagExec edges act ns).2.length, j < i ∧
        e.Source ∈ (dagExec edges act ns).2[j] := by
  obtain ⟨_, _, _, Q4, _, _, _, _⟩ := dagExec_post act hns
  intro e he i hi ht
  rcases Q4 e he i hi ht with h | h
  · exact absurd h (List.not_mem_nil _)
  · exact h

/-- Witness for C2 at `{(a, b)}` with an always-succeeding action. -/
theorem claim_C2_dagExec_ordering_witness :
    NodeIter [Edge.mk "a" "b"] (nodesOf [Edge.mk "a" "b"]) ∧
    (∀ e ∈ [Edge.mk "a" "b"], ∀ (i : Nat)
        (hi : i < (dagExec [Edge.mk "a" "b"] (fun _ _ => (none : Option Unit))
          (nodesOf [Edge.mk "a" "b"])).2.length),
      e.Target ∈ (dagExec [Edge.mk "a" "b"] (fun _ _ => (none : Option Unit))
          (nodesOf [Edge.mk "a" "b"])).2[i] →
      ∃ j, ∃ hj : j < (dagExec [Edge.mk "a" "b"] (fun _ _ => (none : Option Unit))
          (nodesOf [Edge.mk "a" "b"])).2.length, j < i ∧
        e.Source ∈ (dagExec [Edge.mk "a" "b"] (fun _ _ => (none : Option Unit))
          (nodesOf [Edge.mk "a" "b"])).2[j]) := by
  have h1 : NodeIter [Edge.mk "a" "b"] (nodesOf [Edge.mk "a" "b"]) :=
    ⟨by decide, fun x => Iff.rfl⟩
  exact ⟨h1, claim_C2_dagExec_ordering _ _ _ h1⟩

/-- **C3 counterexample**: on the 3-cycle `A → B → C → A` the execution path
reports *no* error at all — `dagExec` returns `nil` (outcome `ok`) and
dispatches nothing, because no node ever reaches in-degree zero and `main`
never consults `topoSort` before calling `dagExec`.  This contradicts the
claim that a fatal cycle error is reported up front. -/
theorem claim_C3_cycle_counterexample :
    (dagExec [Edge.mk "A" "B", Edge.mk "B" "C", Edge.mk "C" "A"]
      (fun _ _ => (none : Option Unit))
      (nodesOf [Edge.mk "A" "B", Edge.mk "B" "C", Edge.mk "C" "A"])) =
      (ExecOutcome.ok, []) := rfl

/-- **C3 amended**: the executor runs no action for any node lying on a
cycle (such nodes never reach in-degree zero), but no cycle error is
reported: with an always-succeeding action the run ends in `ok` even when
the edge set is cyclic — the cyclic part is silently skipped. -/
theorem claim_C3_cycle_silent {ε : Type} (edges : List Edge) (ns : List String)
    (act : Ctx → String → Option ε) (hns : NodeIter edges ns) :
    (∀ x, Relation.TransGen (edgeRel edges) x x →
      x ∉ (dagExec edges act ns).2.flatten) ∧
    ((∀ d, act dagCtx d = none) → (dagExec edges act ns).1 = .ok) := by
  obtain ⟨_, Q2, _, Q4, Q5, _, _, _⟩ := dagExec_post act hns
  have hprec : ∀ e ∈ edges, ∀ (i : Nat)
      (hi : i < (dagExec edges act ns).2.length),
      e.Target ∈ (dagExec edges act ns).2[i] →
      ∃ j, ∃ hj : j < (dagExec edges act ns).2.length, j < i ∧
        e.Source ∈ (dagExec edges act ns).2[j] := by
    intro e he i hi ht
    rcases Q4 e he i hi ht with h | h
    · exact absurd h (List.not_mem_nil _)
    · exact h
  constructor
  · intro x htg hmem
    obtain ⟨w, hw, hxw⟩ := List.mem_flatten.mp hmem
    obtain ⟨i, hi, hwi⟩ := List.mem_iff_getElem.mp hw
    rw [← hwi] at hxw
    obtain ⟨j, hj, hji, hxj⟩ := transGen_wave_chain hprec x x htg i hi hxw
    have hnd : (dagExec edges act ns).2.flatten.Nodup := by simpa using Q2
    have := unique_wave hnd hj hi hxj hxw
    omega
  · intro hact
    exact (Q5 hact).1

/-- Witness for the amended C3 at the 3-cycle with an always-succeeding
action. -/
theorem claim_C3_cycle_silent_witness :
    NodeIter [Edge.mk "A" "B", Edge.mk "B" "C", Edge.mk "C" "A"]
      (nodesOf [Edge.mk "A" "B", Edge.mk "B" "C", Edge.mk "C" "A"]) ∧
    ((∀ x, Relation.TransGen
        (edgeRel [Edge.mk "A" "B", Edge.mk "B" "C", Edge.mk "C" "A"]) x x →
      x ∉ (dagExec [Edge.mk "A" "B", Edge.mk "B" "C", Edge.mk "C" "A"]
        (fun _ _ => (none : Option Unit))
        (nodesOf [Edge.mk "A" "B", Edge.mk "B" "C", Edge.mk "C" "A"])).2.flatten) ∧
    ((∀ d, (fun (_ : Ctx) (_ : String) => (none : Option Unit)) dagCtx d = none) →
      (dagExec [Edge.mk "A" "B", Edge.mk "B" "C", Edge.mk "C" "A"]
        (fun _ _ => (none : Option Unit))
        (nodesOf [Edge.mk "A" "B", Edge.mk "B" "C", Edge.mk "C" "A"])).1 = .ok)) := by
  have h1 : NodeIter [Edge.mk "A" "B", Edge.mk "B" "C", Edge.mk "C" "A"]
      (nodesOf [Edge.mk "A" "B", Edge.mk "B" "C", Edge.mk "C" "A"]) :=
    ⟨by decide, fun x => Iff.rfl⟩
  exact ⟨h1, claim_C3_cycle_silent _ _ _ h1⟩

theorem getElem_append_singleton_left {α : Type} {ws pre : List α} {w : α} {j : Nat}
    (hsplit : ws = pre ++ [w]) (hj : j < ws.length) (hjpre : j < pre.length) :
    ws[j] = pre[j] := by
  subst hsplit
  exact List.getElem_append_left hjpre

/-- **C4 counterexample**: the error value returned by `dagExec` is the raw
command error sent on `errCh`; it does not carry the failing node's
identity (that is only printed to stdout).  Two runs failing at different
nodes — `A` in the first graph, `C` in the second — return *identical*
results, so the returned error cannot identify which node failed. -/
theorem claim_C4_error_counterexample :
    (dagExec [Edge.mk "A" "B"] (fun _ d => if d = "A" then some 0 else none)
        (nodesOf [Edge.mk "A" "B"])).1 =
      (dagExec [Edge.mk "C" "D"] (fun _ d => if d = "C" then some 0 else none)
        (nodesOf [Edge.mk "C" "D"])).1 ∧
    (dagExec [Edge.mk "A" "B"] (fun _ d => if d = "A" then some 0 else none)
        (nodesOf [Edge.mk "A" "B"])).1 = ExecOutcome.err 0 ∧
    ("A" : String) ≠ "C" := ⟨rfl, rfl, by decide⟩

/-- **C4 amended**: when `dagExec` returns an error, the error is the
underlying cause produced by some dispatched failing node's action (without
that node's identity), and no node transitively depending on a dispatched
failing node is ever dispatched. -/
theorem claim_C4_failure_containment {ε : Type} (edges : List Edge) (ns : List String)
    (act : Ctx → String → Option ε) (hns : NodeIter edges ns) :
    ∀ e', (dagExec edges act ns).1 = .err e' →
      (∃ f, f ∈ (dagExec edges act ns).2.flatten ∧ act dagCtx f = some e') ∧
      (∀ f, f ∈ (dagExec edges act ns).2.flatten → act dagCtx f ≠ none →
        ∀ m, Relation.TransGen (edgeRel edges) f m →
          m ∉ (dagExec edges act ns).2.flatten) := by
  obtain ⟨_, _, _, Q4, _, Q6, _, _⟩ := dagExec_post act hns
  have hprec : ∀ e ∈ edges, ∀ (i : Nat)
      (hi : i < (dagExec edges act ns).2.length),
      e.Target ∈ (dagExec edges act ns).2[i] →
      ∃ j, ∃ hj : j < (dagExec edges act ns).2.length, j < i ∧
        e.Source ∈ (dagExec edges act ns).2[j] := by
    intro e he i hi ht
    rcases Q4 e he i hi ht with h | h
    · exact absurd h (List.not_mem_nil _)
    · exact h
  intro e' herr
  obtain ⟨pre, w, hsplit, hpre, hw⟩ := Q6 e' herr
  constructor
  · have hmem : e' ∈ w.filterMap (act dagCtx) := by
      rw [hw]
      exact List.mem_cons_self _ _
    obtain ⟨f, hf, hfe⟩ := List.mem_filterMap.mp hmem
    refine ⟨f, List.mem_flatten.mpr ⟨w, ?_, hf⟩, hfe⟩
    rw [hsplit]
    exact List.mem_append_right _ (List.mem_cons_self _ _)
  · intro f _ hfail m htg hmmem
    obtain ⟨wm, hwm, hmwm⟩ := List.mem_flatten.mp hmmem
    obtain ⟨i, hi, hwi⟩ := List.mem_iff_getElem.mp hwm
    rw [← hwi] at hmwm
    obtain ⟨j, hj, hji, hfj⟩ := transGen_wave_chain hprec f m htg i hi hmwm
    have hlenws : (dagExec edges act ns).2.length = pre.length + 1 := by
      rw [hsplit]
      simp
    have hjpre : j < pre.length := by omega
    have hgj := getElem_append_singleton_left hsplit hj hjpre
    rw [hgj] at hfj
    have hfnone : act dagCtx f = none :=
      List.filterMap_eq_nil_iff.mp (hpre _ (List.getElem_mem hjpre)) f hfj
    exact hfail hfnone

/-- Witness for the amended C4: `A → B` with `A` failing; the run errs with
`A`'s cause and dispatches no dependent. -/
theorem claim_C4_failure_containment_witness :
    NodeIter [Edge.mk "A" "B"] (nodesOf [Edge.mk "A" "B"]) ∧
    (∀ e', (dagExec [Edge.mk "A" "B"]
          (fun _ d => if d = "A" then some 0 else none)
          (nodesOf [Edge.mk "A" "B"])).1 = .err e' →
      (∃ f, f ∈ (dagExec [Edge.mk "A" "B"]
          (fun _ d => if d = "A" then some 0 else none)
          (nodesOf [Edge.mk "A" "B"])).2.flatten ∧
        (fun (_ : Ctx) (d : String) => if d = "A" then some 0 else none) dagCtx f
          = some e') ∧
      (∀ f, f ∈ (dagExec [Edge.mk "A" "B"]
          (fun _ d => if d = "A" then some 0 else none)
          (nodesOf [Edge.mk "A" "B"])).2.flatten →
        (fun (_ : Ctx) (d : String) => if d = "A" then some 0 else none) dagCtx f
          ≠ none →
        ∀ m, Relation.TransGen (edgeRel [Edge.mk "A" "B"]) f m →
          m ∉ (dagExec [Edge.mk "A" "B"]
            (fun _ d => if d = "A" then some 0 else none)
            (nodesOf [Edge.mk "A" "B"])).2.flatten)) := by
  have h1 : NodeIter [Edge.mk "A" "B"] (nodesOf [Edge.mk "A" "B"]) :=
    ⟨by decide, fun x => Iff.rfl⟩
  exact ⟨h1, claim_C4_failure_containment _ _ _ h1⟩

/-- **C7**: with an acyclic edge set and an always-succeeding action,
`dagExec` terminates in `ok` having dispatched every node exactly once
(each wave's actions all succeed), and along any observable semaphore trace
the number of simultaneously running commands never exceeds `maxParallel`. -/
theorem claim_C7_dagExec_liveness {ε : Type} (edges : List Edge) (ns : List String)
    (act : Ctx → String → Option ε) (P : Nat) (hP : 1 ≤ P)
    (hns : NodeIter edges ns) (hacyc : Acyclic edges)
    (hact : ∀ d, act dagCtx d = none) :
    ((dagExec edges act ns).1 = .ok ∧
      (dagExec edges act ns).2.flatten.Perm ns ∧
      (∀ w ∈ (dagExec edges act ns).2, w.filterMap (act dagCtx) = [])) ∧
    (∀ pre suf : List SemEv, semRun P 0 (pre ++ suf) ≠ none →
      ∃ c, semRun P 0 pre = some c ∧ c ≤ P) := by
  obtain ⟨_, Q2, Q3, _, Q5, _, _, Q8⟩ := dagExec_post act hns
  obtain ⟨hok, hclosed⟩ := Q5 hact
  have hnd : (dagExec edges act ns).2.flatten.Nodup := by simpa using Q2
  have hclosed' : ∀ x ∈ ns,
      (∀ e ∈ edges, e.Target = x → e.Source ∈ (dagExec edges act ns).2.flatten) →
      x ∈ (dagExec edges act ns).2.flatten := by
    intro x hx hall
    have := hclosed x hx (by
      intro e he ht
      rw [List.nil_append]
      exact hall e he ht)
    rw [List.nil_append] at this
    exact this
  have hcomplete := complete_of_closed (dagExec edges act ns).2.flatten
    (fun x h => (hns.2 x).mpr h) hacyc hclosed'
  refine ⟨⟨hok, ?_, Q8 hok⟩, fun pre suf h => semRun_prefix_le P pre suf 0 (Nat.zero_le P) h⟩
  exact (List.perm_ext_iff_of_nodup hnd hns.1).mpr
    (fun x => ⟨fun h => Q3 x h, fun h => hcomplete x h⟩)

/-- Witness for C7 at `{(a, b)}`, an always-succeeding action, `P = 1`. -/
theorem claim_C7_dagExec_liveness_witness :
    (1 ≤ 1) ∧
    NodeIter [Edge.mk "a" "b"] (nodesOf [Edge.mk "a" "b"]) ∧
    Acyclic [Edge.mk "a" "b"] ∧
    (∀ d, (fun (_ : Ctx) (_ : String) => (none : Option Unit)) dagCtx d = none) ∧
    (((dagExec [Edge.mk "a" "b"] (fun _ _ => (none : Option Unit))
        (nodesOf [Edge.mk "a" "b"])).1 = .ok ∧
      (dagExec [Edge.mk "a" "b"] (fun _ _ => (none : Option Unit))
        (nodesOf [Edge.mk "a" "b"])).2.flatten.Perm (nodesOf [Edge.mk "a" "b"]) ∧
      (∀ w ∈ (dagExec [Edge.mk "a" "b"] (fun _ _ => (none : Option Unit))
        (nodesOf [Edge.mk "a" "b"])).2,
        w.filterMap ((fun (_ : Ctx) (_ : String) => (none : Option Unit)) dagCtx) = [])) ∧
    (∀ pre suf : List SemEv, semRun 1 0 (pre ++ suf) ≠ none →
      ∃ c, semRun 1 0 pre = some c ∧ c ≤ 1)) := by
  have h1 : NodeIter [Edge.mk "a" "b"] (nodesOf [Edge.mk "a" "b"]) :=
    ⟨by decide, fun x => Iff.rfl⟩
  have h2 : Acyclic [Edge.mk "a" "b"] :=
    acyclic_of_rank _ (fun s => if s = "a" then 0 else 1) (by decide)
  exact ⟨Nat.le_refl 1, h1, h2, fun _ => rfl,
    claim_C7_dagExec_liveness _ _ _ 1 (Nat.le_refl 1) h1 h2 (fun _ => rfl)⟩

/-- **C8 counterexample**: `A → C`, `B → C` puts `A` and `B` in the same
dispatch wave, so `B`'s command runs concurrently with `A`'s failing
command; yet the context every invocation receives is the background
context, which carries no cancellation signal — nothing asks `B` to stop.
No cancellation signal is ever raised: `dagExec` never calls
`context.WithCancel`. -/
theorem claim_C8_no_cancellation_counterexample :
    (dagExec [Edge.mk "A" "C", Edge.mk "B" "C"]
        (fun _ d => if d = "A" then some 0 else none)
        (nodesOf [Edge.mk "A" "C", Edge.mk "B" "C"])) =
      (ExecOutcome.err 0, [["A", "B"]]) ∧
    ("B" : String) ∈ ["A", "B"] ∧
    Ctx.isCancelled dagCtx = false := ⟨rfl, by decide, rfl⟩

/-- **C8 amended**: no cancellation signal exists — every action invocation
receives the never-cancelled background context — and suppression of future
work happens only at wave boundaries: once a wave contains a failure it is
the final dispatched wave (every earlier wave was failure-free). -/
theorem claim_C8_wave_boundary_stop {ε : Type} (edges : List Edge) (ns : List String)
    (act : Ctx → String → Option ε) (hns : NodeIter edges ns) :
    Ctx.isCancelled dagCtx = false ∧
    (∀ e', (dagExec edges act ns).1 = .err e' →
      ∃ pre w, (dagExec edges act ns).2 = pre ++ [w] ∧
        (∀ w' ∈ pre, w'.filterMap (act dagCtx) = []) ∧
        w.filterMap (act dagCtx) = [e']) := by
  obtain ⟨_, _, _, _, _, Q6, _, _⟩ := dagExec_post act hns
  exact ⟨rfl, Q6⟩

/-- Witness for the amended C8 at the `A → C`, `B → C` scenario with `A`
failing. -/
theorem claim_C8_wave_boundary_stop_witness :
    NodeIter [Edge.mk "A" "C", Edge.mk "B" "C"]
      (nodesOf [Edge.mk "A" "C", Edge.mk "B" "C"]) ∧
    (Ctx.isCancelled dagCtx = false ∧
    (∀ e', (dagExec [Edge.mk "A" "C", Edge.mk "B" "C"]
        (fun _ d => if d = "A" then some 0 else none)
        (nodesOf [Edge.mk "A" "C", Edge.mk "B" "C"])).1 = .err e' →
      ∃ pre w, (dagExec [Edge.mk "A" "C", Edge.mk "B" "C"]
        (fun _ d => if d = "A" then some 0 else none)
        (nodesOf [Edge.mk "A" "C", Edge.mk "B" "C"])).2 = pre ++ [w] ∧
        (∀ w' ∈ pre, w'.filterMap
          ((fun (_ : Ctx) (d : String) => if d = "A" then some 0 else none) dagCtx)
            = []) ∧
        w.filterMap
          ((fun (_ : Ctx) (d : String) => if d = "A" then some 0 else none) dagCtx)
            = [e'])) := by
  have h1 : NodeIter [Edge.mk "A" "C", Edge.mk "B" "C"]
      (nodesOf [Edge.mk "A" "C", Edge.mk "B" "C"]) := ⟨by decide, fun x => Iff.rfl⟩
  exact ⟨h1, claim_C8_wave_boundary_stop _ _ _ h1⟩

/-- **C9**: two near-simultaneous failures — here `A` and `C`, which share
the first dispatch wave — do *not* collapse to a single returned error:
the first `errCh <- err` fills the 1-slot buffer and the second blocks
forever, so its deferred `wg.Done` never runs and `wg.Wait` never returns.
The run is stuck; `dagExec` neither returns an error nor terminates. -/
theorem claim_C9_two_failures_stuck :
    (dagExec [Edge.mk "A" "B", Edge.mk "C" "D"]
        (fun _ d => if d = "A" ∨ d = "C" then some 0 else none)
        (nodesOf [Edge.mk "A" "B", Edge.mk "C" "D"])).1 = ExecOutcome.stuck := rfl

/-! ## The parser front end (parser.go)

`parseDependencies` scans a `main.tf` file line by line with a small state
machine (`inLocals`, `inDeps`) and extracts `name = "path"` bindings from
the `dependencies` block inside `locals`.  The filesystem is modelled as a
partial map from paths to file lines (`none` = the file does not exist or
cannot be opened, the `os.Open` error branch); the compiled regular
expression `depRe` is modelled as a parameter `matchLine` returning the two
capture groups when a line matches.  Go's `deps` map is modelled as an
association list in which a repeated name overrides its earlier binding.
`filepath.Join` (and the `Clean` applied to targets) is modelled as
separator concatenation; no claim depends on path normalization. -/

/-- Go map assignment `deps[k] = v`: replace any existing binding of `k`. -/
def updateAssoc (l : List (String × String)) (k v : String) :
    List (String × String) :=
  l.filter (fun p => decide (¬ p.1 = k)) ++ [(k, v)]

/-- The scanner loop of `parseDependencies`: one step per line, carrying
the `inLocals` / `inDeps` flags and the accumulated map. -/
def parseScan (matchLine : String → Option (String × String)) :
    List String → Bool → Bool → List (String × String) → List (String × String)
  | [], _, _, deps => deps
  | line0 :: rest, inLocals, inDeps, deps =>
    let line := line0.trim
    if line.startsWith "locals" && line.contains '\x7b' then
      parseScan matchLine rest true inDeps deps
    else if inLocals && line.startsWith "dependencies" && line.contains '\x7b' then
      parseScan matchLine rest inLocals true deps
    else if inDeps then
      if line.contains '\x7d' then
        parseScan matchLine rest inLocals false deps
      else
        match matchLine line with
        | some kv => parseScan matchLine rest inLocals inDeps (updateAssoc deps kv.1 kv.2)
        | none => parseScan matchLine rest inLocals inDeps deps
    else if inLocals && line.contains '\x7d' then
      parseScan matchLine rest false inDeps deps
    else
      parseScan matchLine rest inLocals inDeps deps

/-- `func parseDependencies(tfPath string) map[string]string`: when
`os.Open` fails the function returns an empty map — there is no error
surface at all. -/
def parseDependencies (matchLine : String → Option (String × String))
    (fs : String → Option (List String)) (tfPath : String) :
    List (String × String) :=
  match fs tfPath with
  | none => []
  | some lines => parseScan matchLine lines false false []

/-- `filepath.Join` and the `filepath.Clean` applied to dependency targets,
modelled as separator concatenation. -/
def joinPath (dir name : String) : String := dir ++ "/" ++ name

mutual

/-- `func collectEdges(dir string, edges *[]Edge, visited map[string]bool)`:
an already-visited directory is skipped; otherwise the directory is marked
visited, its `main.tf` is parsed, and each dependency contributes an edge
`(targetDir, dir)` followed by recursion into `targetDir`.  `fuel` bounds
the recursion depth (the real filesystem is finite). -/
def collectEdges (matchLine : String → Option (String × String))
    (fs : String → Option (List String)) :
    Nat → String → List Edge → List String → List Edge × List String
  | 0, _, edges, visited => (edges, visited)
  | fuel + 1, dir, edges, visited =>
    if dir ∈ visited then (edges, visited)
    else
      collectDeps matchLine fs fuel dir
        (parseDependencies matchLine fs (joinPath dir "main.tf"))
        edges (dir :: visited)

/-- The `for _, relPath := range deps` loop of `collectEdges`. -/
def collectDeps (matchLine : String → Option (String × String))
    (fs : String → Option (List String)) :
    Nat → String → List (String × String) → List Edge → List String →
      List Edge × List String
  | _, _, [], edges, visited => (edges, visited)
  | fuel, dir, kv :: rest, edges, visited =>
    let targetDir := joinPath dir kv.2
    let r := collectEdges matchLine fs fuel targetDir
      (edges ++ [{ Source := targetDir, Target := dir }]) visited
    collectDeps matchLine fs fuel dir rest r.1 r.2

end

/-- **C10**: for every path whose `main.tf` does not exist or cannot be
opened, `parseDependencies` returns the empty map rather than an error, so
`collectEdges` on such a directory adds no edges and only marks the
directory visited — the unit is silently treated as a leaf with no
dependencies of its own. -/
theorem claim_C10_missing_main_tf
    (matchLine : String → Option (String × String))
    (fs : String → Option (List String)) (dir : String)
    (edges : List Edge) (visited : List String) (fuel : Nat)
    (hfs : fs (joinPath dir "main.tf") = none) (hvis : dir ∉ visited) :
    parseDependencies matchLine fs (joinPath dir "main.tf") = [] ∧
    collectEdges matchLine fs (fuel + 1) dir edges visited =
      (edges, dir :: visited) := by
  have hparse : parseDependencies matchLine fs (joinPath dir "main.tf") = [] := by
    unfold parseDependencies
    rw [hfs]
  refine ⟨hparse, ?_⟩
  unfold collectEdges
  rw [if_neg hvis, hparse]
  unfold collectDeps
  rfl

/-- Witness for C10: an empty filesystem, a fresh directory. -/
theorem claim_C10_missing_main_tf_witness :
    (fun _ : String => (none : Option (List String))) (joinPath "u" "main.tf")
        = none ∧
    ("u" : String) ∉ ([] : List String) ∧
    (parseDependencies (fun _ => none) (fun _ => none) (joinPath "u" "main.tf")
        = [] ∧
      collectEdges (fun _ => none) (fun _ => none) 1 "u" [] [] = ([], ["u"])) := by
  refine ⟨rfl, by decide, claim_C10_missing_main_tf _ _ _ [] [] 0 rfl (by decide)⟩

end Tforder
